import Mathlib

/-!
Shallow embedding of `binance-order-book.py` (a Binance order-book
aggregator) and verification of its specification claims.

Modelling conventions:
* Python strings are `List Char`; `str.rstrip(c)` / `str.split(c)` /
  the `in` membership test are embedded as `pyRstrip` / `pySplit` / `∈`.
* Python floats are modelled as exact rationals `ℚ`; `float(s)` on a
  plain decimal literal (optional sign, digits, at most one point — the
  only shapes relevant to the claims) is embedded as `pyFloat`, which
  returns `none` where `float` raises `ValueError`.
* A raised-and-uncaught Python exception is modelled as an `Option`
  (`none`) or an `Except.error` result.
* `collections.defaultdict(float)` with `m[k] += v` is embedded as an
  insertion-ordered association list (`dictAdd`), matching Python dict
  semantics: an absent key is appended at the end with value `0 + v`, a
  present key is updated in place.
* Python `sorted` (a stable sort by a key, with an optional `reverse`
  flag implemented by flipping the key comparison) is embedded as
  `List.insertionSort` with the corresponding total preorder; a stable
  sort's output is uniquely determined by the comparator, so this is
  behaviourally faithful.
-/

/-! ### Python string primitives -/

/-- Python `s.rstrip(c)` for a single strip character: remove all trailing
occurrences of `c`. -/
def pyRstrip (c : Char) (s : List Char) : List Char :=
  (s.reverse.dropWhile (fun x => x = c)).reverse

/-- Python `s.split(c)` for a single-character separator. -/
def pySplit (c : Char) : List Char → List (List Char)
  | [] => [[]]
  | a :: t =>
    if a = c then [] :: pySplit c t
    else
      match pySplit c t with
      | [] => [[a]]
      | h :: r => (a :: h) :: r

/-- Split a character list at its first `'.'`: returns the part before it
and, when a `'.'` is present, the part after it. -/
def splitAtDot : List Char → List Char × Option (List Char)
  | [] => ([], none)
  | c :: t =>
    if c = '.' then ([], some t)
    else ((splitAtDot t).1.cons c, (splitAtDot t).2)

/-- ASCII decimal digit test, as Python's `float` grammar uses it. -/
def isDigitB (c : Char) : Bool := decide ('0' ≤ c) && decide (c ≤ '9')

/-- Numeric value of a digit character. -/
def digitVal (c : Char) : Nat := c.toNat - 48

/-- Value of a digit string read in base 10. -/
def natVal (ds : List Char) : Nat := ds.foldl (fun a c => 10 * a + digitVal c) 0

/-- Python `float(body)` on an unsigned decimal literal `body`:
digits with at most one decimal point and at least one digit.
`none` models a raised `ValueError`. -/
def pyFloatBody (body : List Char) : Option ℚ :=
  match splitAtDot body with
  | (ip, none) =>
    if ip ≠ [] ∧ ip.all isDigitB then some (natVal ip) else none
  | (ip, some fp) =>
    if (ip ≠ [] ∨ fp ≠ []) ∧ ip.all isDigitB ∧ fp.all isDigitB then
      some ((natVal ip : ℚ) + (natVal fp : ℚ) / 10 ^ fp.length)
    else none

/-- Python `float(s)` on a plain decimal literal with an optional sign.
`none` models a raised `ValueError`. -/
def pyFloat : List Char → Option ℚ
  | [] => none
  | c :: t =>
    if c = '-' then (pyFloatBody t).map (fun v => -v)
    else if c = '+' then pyFloatBody t
    else pyFloatBody (c :: t)

/-! ### `parse_group_size` (lines 9–29 of the source) -/

/-- Embedding of `parse_group_size`: `float(gs_str)` paired with the
decimal precision computed from the surface string
(`gs_str.rstrip('0').rstrip('.')`, then the length of `split('.')[1]`
when a `'.'` remains).  `none` models the uncaught `ValueError` that
`float` raises on a malformed string. -/
def parse_group_size (gs : List Char) : Option (ℚ × Nat) :=
  match pyFloat gs with
  | none => none
  | some val =>
    let s := pyRstrip '.' (pyRstrip '0' gs)
    let decimals_count := if '.' ∈ s then ((pySplit '.' s).getD 1 []).length else 0
    some (val, decimals_count)

/-- The precision as the spec words it: strip trailing `'0'` characters,
then one trailing `'.'`, and count the fractional digits that remain. -/
def stripOneTrailingDot (s : List Char) : List Char :=
  if s.getLast? = some '.' then s.dropLast else s

/-- Number of fractional digits of a character list: the length of the
part after the first `'.'`, or `0` when there is no `'.'`. -/
def fracDigitCount (s : List Char) : Nat :=
  match splitAtDot s with
  | (_, none) => 0
  | (_, some fp) => fp.length

/-- Spec-worded precision of a group-size string. -/
def claimPrecision (s : List Char) : Nat :=
  fracDigitCount (stripOneTrailingDot (pyRstrip '0' s))

/-! ### `group_price` (lines 31–38) and aggregation (lines 152–161) -/

/-- The numeric bucket computation inside `group_price`:
`math.floor(price / group_size_float) * group_size_float`. -/
def bucketOf (price group_size_float : ℚ) : ℚ :=
  ⌊price / group_size_float⌋ * group_size_float

/-- Embedding of `group_price(price_str, group_size_float)`:
`float(price_str)` then floor-division bucketing. -/
def group_price (price_str : List Char) (group_size_float : ℚ) : Option ℚ :=
  (pyFloat price_str).map (fun price => bucketOf price group_size_float)

/-- One `agg[bucket] += qty` step on a `defaultdict(float)` embedded as an
insertion-ordered association list: a present key is updated in place, an
absent key is appended at the end with the default `0` plus `v`. -/
def dictAdd : List (ℚ × ℚ) → ℚ → ℚ → List (ℚ × ℚ)
  | [], k, v => [(k, 0 + v)]
  | (k', v') :: t, k, v =>
    if k = k' then (k', v' + v) :: t else (k', v') :: dictAdd t k v

/-- Lookup in the aggregation dictionary with the `defaultdict` default. -/
def dget : List (ℚ × ℚ) → ℚ → ℚ
  | [], _ => 0
  | (k', v') :: t, k => if k = k' then v' else dget t k

/-- Key list of the aggregation dictionary. -/
def dkeys (m : List (ℚ × ℚ)) : List ℚ := m.map Prod.fst

/-- The aggregation loop of `main` over already-parsed numeric levels
`(price, quantity)`: one `dictAdd` per level, left to right. -/
def aggLevels (b : ℚ) (m : List (ℚ × ℚ)) (ls : List (ℚ × ℚ)) : List (ℚ × ℚ) :=
  ls.foldl (fun acc lv => dictAdd acc (bucketOf lv.1 b) lv.2) m

/-- The aggregation loop of `main` over raw string levels, as the source
runs it: `bucket = group_price(price_str, gs)` then
`agg[bucket] += float(qty_str)`; `none` models an uncaught `ValueError`. -/
def aggLevelsStr (b : ℚ) (m : List (ℚ × ℚ)) :
    List (List Char × List Char) → Option (List (ℚ × ℚ))
  | [] => some m
  | (ps, qs) :: rest =>
    match group_price ps b, pyFloat qs with
    | some bucket, some q => aggLevelsStr b (dictAdd m bucket q) rest
    | _, _ => none

/-! ### Sorting (lines 163–170): Python `sorted` with a key and `reverse` -/

/-- Ascending comparison by a rational-valued key. -/
def keyLE {α : Type} (k : α → ℚ) (x y : α) : Prop := k x ≤ k y

/-- Descending comparison by a rational-valued key (what Python's
`sorted(..., reverse=True)` sorts by, stably). -/
def keyGE {α : Type} (k : α → ℚ) (x y : α) : Prop := k y ≤ k x

instance {α : Type} (k : α → ℚ) : DecidableRel (keyLE k) :=
  fun x y => inferInstanceAs (Decidable (k x ≤ k y))

instance {α : Type} (k : α → ℚ) : DecidableRel (keyGE k) :=
  fun x y => inferInstanceAs (Decidable (k y ≤ k x))

instance {α : Type} (k : α → ℚ) : IsTotal α (keyLE k) :=
  ⟨fun a b => le_total (k a) (k b)⟩

instance {α : Type} (k : α → ℚ) : IsTrans α (keyLE k) :=
  ⟨fun _ _ _ h1 h2 => le_trans h1 h2⟩

instance {α : Type} (k : α → ℚ) : IsTotal α (keyGE k) :=
  ⟨fun a b => le_total (k b) (k a)⟩

instance {α : Type} (k : α → ℚ) : IsTrans α (keyGE k) :=
  ⟨fun _ _ _ h1 h2 => le_trans h2 h1⟩

/-- Python `sorted(l, key=k, reverse=rev)`: a stable sort by `k`,
with `reverse=True` flipping the key comparison.  Insertion sort with the
matching total preorder is stable, and a stable sort's output is uniquely
determined, so this is the exact observable behaviour. -/
def sortedPy {α : Type} (k : α → ℚ) (rev : Bool) (l : List α) : List α :=
  if rev then List.insertionSort (keyGE k) l else List.insertionSort (keyLE k) l

/-- `sorted(bids_agg.items(), key=lambda x: x[0], reverse=True)` — line 165. -/
def bids_by_price (m : List (ℚ × ℚ)) : List (ℚ × ℚ) := sortedPy Prod.fst true m

/-- `sorted(bids_agg.items(), key=lambda x: x[1], reverse=(sort_dir == "desc"))` — line 166. -/
def bids_by_qty (m : List (ℚ × ℚ)) (sortDirDesc : Bool) : List (ℚ × ℚ) :=
  sortedPy Prod.snd sortDirDesc m

/-- `sorted(asks_agg.items(), key=lambda x: x[0], reverse=False)` — line 169. -/
def asks_by_price (m : List (ℚ × ℚ)) : List (ℚ × ℚ) := sortedPy Prod.fst false m

/-- `sorted(asks_agg.items(), key=lambda x: x[1], reverse=(sort_dir == "desc"))` — line 170. -/
def asks_by_qty (m : List (ℚ × ℚ)) (sortDirDesc : Bool) : List (ℚ × ℚ) :=
  sortedPy Prod.snd sortDirDesc m

/-! ### `format_quantity` (lines 40–52) -/

/-- Accumulator-style base-10 digit rendering of a natural number; the
fuel argument is an upper bound on the number of digits. -/
def natCharsGo : Nat → Nat → List Char → List Char
  | 0, _, acc => acc
  | fuel + 1, n, acc =>
    if n < 10 then Char.ofNat (48 + n) :: acc
    else natCharsGo fuel (n / 10) (Char.ofNat (48 + n % 10) :: acc)

/-- Base-10 digit characters of a natural number. -/
def natChars (n : Nat) : List Char := natCharsGo (n + 1) n []

/-- Round a rational to the nearest integer, ties to even — the rounding
Python's fixed-point float formatting applies. -/
def rne (x : ℚ) : ℤ :=
  if x - ⌊x⌋ < 1 / 2 then ⌊x⌋
  else if (1 : ℚ) / 2 < x - ⌊x⌋ then ⌊x⌋ + 1
  else if ⌊x⌋ % 2 = 0 then ⌊x⌋ else ⌊x⌋ + 1

/-- Digits of a two-decimal fixed-point rendering of the nonnegative
integer `n` of hundredths: integer part, `'.'`, two fraction digits. -/
def formatFixed2Nat (n : Nat) : List Char :=
  natChars (n / 100) ++ '.' :: [Char.ofNat (48 + n % 100 / 10), Char.ofNat (48 + n % 100 % 10)]

/-- Python `f"{q:.2f}"` on the exact value `q`: round to hundredths, ties
to even, and print with exactly two fractional digits. -/
def formatFixed2 (q : ℚ) : List Char :=
  if q < 0 then '-' :: formatFixed2Nat (-rne (q * 100)).toNat
  else formatFixed2Nat (rne (q * 100)).toNat

/-- Embedding of `format_quantity`: magnitude suffixes at 10^9 / 10^6 /
10^3 with exactly two decimals, and — only in the final branch — the
two-decimal rendering with trailing zeros and a trailing point stripped. -/
def format_quantity (q : ℚ) : List Char :=
  if 1000000000 ≤ q then formatFixed2 (q / 1000000000) ++ ['B']
  else if 1000000 ≤ q then formatFixed2 (q / 1000000) ++ ['M']
  else if 1000 ≤ q then formatFixed2 (q / 1000) ++ ['k']
  else pyRstrip '.' (pyRstrip '0' (formatFixed2 q))

/-- The quantity renderer as the spec words it (for comparison with the
source): the stripping of trailing zeros and a trailing point applied in
*every* branch, suffixed ones included. -/
def claim_format_quantity (q : ℚ) : List Char :=
  if 1000000000 ≤ q then pyRstrip '.' (pyRstrip '0' (formatFixed2 (q / 1000000000))) ++ ['B']
  else if 1000000 ≤ q then pyRstrip '.' (pyRstrip '0' (formatFixed2 (q / 1000000))) ++ ['M']
  else if 1000 ≤ q then pyRstrip '.' (pyRstrip '0' (formatFixed2 (q / 1000))) ++ ['k']
  else pyRstrip '.' (pyRstrip '0' (formatFixed2 q))

/-! ### The `main` pipeline (lines 138–170) -/

/-- The JSON order book returned by the depth endpoint: `bids` and `asks`
as lists of `[price_string, quantity_string]` levels. -/
structure Book where
  bids : List (List Char × List Char)
  asks : List (List Char × List Char)
deriving DecidableEq

/-- How a run can abort: an uncaught exception from the group-size
conversion (before the fetch), a fetch failure, or an uncaught exception
while converting a level. -/
inductive RunError where
  | invalidGroupSize
  | fetchError
  | levelError
deriving DecidableEq

/-- The four ordered views `main` computes. -/
structure Output where
  bidsByPrice : List (ℚ × ℚ)
  bidsByQty : List (ℚ × ℚ)
  asksByPrice : List (ℚ × ℚ)
  asksByQty : List (ℚ × ℚ)
deriving DecidableEq

/-- Embedding of `main` after argument parsing, parameterised by the
fetch outcome (`none` = network failure): `parse_group_size` runs first
(line 139), the fetch happens after (line 145), then both sides are
aggregated and the four sorted views are produced (lines 152–170). -/
def runMain (gs : List Char) (sortDirDesc : Bool) (fetch : Option Book) :
    Except RunError Output :=
  match parse_group_size gs with
  | none => Except.error RunError.invalidGroupSize
  | some (group_size_float, _) =>
    match fetch with
    | none => Except.error RunError.fetchError
    | some book =>
      match aggLevelsStr group_size_float [] book.bids,
            aggLevelsStr group_size_float [] book.asks with
      | some bids_agg, some asks_agg =>
        Except.ok
          { bidsByPrice := bids_by_price bids_agg
            bidsByQty := bids_by_qty bids_agg sortDirDesc
            asksByPrice := asks_by_price asks_agg
            asksByQty := asks_by_qty asks_agg sortDirDesc }
      | _, _ => Except.error RunError.levelError

/-! ### String lemmas -/

theorem splitAtDot_none {l : List Char} :
    ∀ {a : List Char}, splitAtDot l = (a, none) → a = l ∧ '.' ∉ l := by
  induction l with
  | nil =>
    intro a h
    have ha : a = [] := by simpa [splitAtDot] using congrArg Prod.fst h.symm
    subst ha
    simp
  | cons c t ih =>
    intro a h
    rcases hsp : splitAtDot t with ⟨a2, o2⟩
    by_cases hc : c = '.'
    · exfalso
      subst hc
      simpa [splitAtDot] using congrArg Prod.snd h
    · have hred : splitAtDot (c :: t) = (c :: a2, o2) := by
        simp [splitAtDot, hc, hsp]
      rw [h] at hred
      have ha : a = c :: a2 := congrArg Prod.fst hred
      have ho : o2 = none := (congrArg Prod.snd hred).symm
      subst ho
      rcases ih hsp with ⟨ha2, hm⟩
      subst ha2
      subst ha
      refine ⟨rfl, ?_⟩
      intro hmem
      rcases List.mem_cons.mp hmem with he | hin
      · exact hc he.symm
      · exact hm hin

theorem splitAtDot_some {l : List Char} :
    ∀ {a b : List Char}, splitAtDot l = (a, some b) → l = a ++ '.' :: b ∧ '.' ∉ a := by
  induction l with
  | nil =>
    intro a b h
    exact absurd (congrArg Prod.snd h) (by simp [splitAtDot])
  | cons c t ih =>
    intro a b h
    rcases hsp : splitAtDot t with ⟨a2, o2⟩
    by_cases hc : c = '.'
    · subst hc
      have h1 : a = [] := by simpa [splitAtDot] using congrArg Prod.fst h.symm
      have h2 : t = b := by simpa [splitAtDot] using Option.some.inj (congrArg Prod.snd h)
      subst h1
      subst h2
      simp
    · have hred : splitAtDot (c :: t) = (c :: a2, o2) := by
        simp [splitAtDot, hc, hsp]
      rw [h] at hred
      have ha : a = c :: a2 := congrArg Prod.fst hred
      have ho : o2 = some b := (congrArg Prod.snd hred).symm
      subst ho
      rcases ih hsp with ⟨hl, hm⟩
      subst ha
      constructor
      · rw [List.cons_append, ← hl]
      · intro hmem
        rcases List.mem_cons.mp hmem with he | hin
        · exact hc he.symm
        · exact hm hin

theorem isDigitB_ne_dot {c : Char} (h : isDigitB c = true) : c ≠ '.' := by
  intro he
  subst he
  exact absurd h (by decide)

theorem all_digits_no_dot {l : List Char} (h : l.all isDigitB = true) : '.' ∉ l := by
  intro hm
  exact isDigitB_ne_dot (List.all_eq_true.mp h _ hm) rfl

theorem pyFloatBody_none_eq {body ip : List Char} (hs : splitAtDot body = (ip, none)) :
    pyFloatBody body = if ip ≠ [] ∧ ip.all isDigitB then some (natVal ip : ℚ) else none := by
  unfold pyFloatBody
  rw [hs]

theorem pyFloatBody_some_eq {body ip fp : List Char} (hs : splitAtDot body = (ip, some fp)) :
    pyFloatBody body =
      if (ip ≠ [] ∨ fp ≠ []) ∧ ip.all isDigitB ∧ fp.all isDigitB then
        some ((natVal ip : ℚ) + (natVal fp : ℚ) / 10 ^ fp.length)
      else none := by
  unfold pyFloatBody
  rw [hs]

theorem pyFloatBody_dots {body : List Char} {v : ℚ} (h : pyFloatBody body = some v) :
    body.count '.' ≤ 1 := by
  rcases hs : splitAtDot body with ⟨ip, ofp⟩
  cases ofp with
  | none =>
    rcases splitAtDot_none hs with ⟨_, hm⟩
    simp [List.count_eq_zero.mpr hm]
  | some fp =>
    rcases splitAtDot_some hs with ⟨hl, hip⟩
    rw [pyFloatBody_some_eq hs] at h
    split_ifs at h with hcond
    · have hfp : '.' ∉ fp := all_digits_no_dot hcond.2.2
      subst hl
      simp [List.count_append, List.count_cons, List.count_eq_zero.mpr hip,
        List.count_eq_zero.mpr hfp]

theorem pyFloat_dots {s : List Char} {v : ℚ} (h : pyFloat s = some v) :
    s.count '.' ≤ 1 := by
  cases s with
  | nil => simp [pyFloat] at h
  | cons c t =>
    simp only [pyFloat] at h
    split_ifs at h with h1 h2
    · subst h1
      rcases Option.map_eq_some'.mp h with ⟨w, hw, _⟩
      simpa [List.count_cons] using pyFloatBody_dots hw
    · subst h2
      simpa [List.count_cons] using pyFloatBody_dots h
    · exact pyFloatBody_dots h

theorem dropWhile_eq_self_of_not {p : Char → Bool} {l : List Char}
    (h : ∀ x ∈ l, ¬p x = true) : l.dropWhile p = l := by
  cases l with
  | nil => rfl
  | cons c t =>
    rw [List.dropWhile_cons]
    simp [h c (by simp)]

theorem count_pyRstrip_le (c a : Char) (s : List Char) :
    (pyRstrip c s).count a ≤ s.count a := by
  unfold pyRstrip
  calc ((s.reverse.dropWhile fun x => x = c).reverse).count a
      = (s.reverse.dropWhile fun x => x = c).count a := List.count_reverse ..
    _ ≤ s.reverse.count a := (List.dropWhile_sublist _).count_le a
    _ = s.count a := List.count_reverse ..

theorem pyRstrip_dot_eq_stripOne {s : List Char} (h : s.count '.' ≤ 1) :
    pyRstrip '.' s = stripOneTrailingDot s := by
  rcases hr : s.reverse with _ | ⟨c, r⟩
  · have hs : s = [] := by simpa using congrArg List.reverse hr
    subst hs
    rfl
  · have hs : s = r.reverse ++ [c] := by simpa using congrArg List.reverse hr
    by_cases hc : c = '.'
    · subst hc
      have hcount : r.count '.' = 0 := by
        have hsc : s.count '.' = r.count '.' + 1 := by
          rw [hs]
          simp [List.count_append, List.count_reverse]
        omega
      have hnr : '.' ∉ r := List.count_eq_zero.mp hcount
      have hdrop : (r.dropWhile fun x => x = '.') = r := by
        refine dropWhile_eq_self_of_not ?_
        intro x hx
        simp only [decide_eq_true_eq]
        intro he
        exact hnr (he ▸ hx)
      have lhs : pyRstrip '.' s = r.reverse := by
        unfold pyRstrip
        rw [hr]
        simp [List.dropWhile_cons, hdrop]
      have rhs : stripOneTrailingDot s = r.reverse := by
        unfold stripOneTrailingDot
        rw [hs]
        simp [List.getLast?_concat, List.dropLast_concat]
      rw [lhs, rhs]
    · have lhs : pyRstrip '.' s = s := by
        unfold pyRstrip
        rw [hr, List.dropWhile_cons]
        simp [hc, ← hr]
      have rhs : stripOneTrailingDot s = s := by
        unfold stripOneTrailingDot
        rw [hs]
        simp [List.getLast?_concat, hc]
      rw [lhs, rhs]

theorem pySplit_no_sep {c : Char} {b : List Char} (h : c ∉ b) : pySplit c b = [b] := by
  induction b with
  | nil => rfl
  | cons x t ih =>
    have hx : ¬x = c := fun he => h (by simp [he])
    have ht : c ∉ t := fun hm => h (by simp [hm])
    simp only [pySplit, if_neg hx, ih ht]

theorem pySplit_first {c : Char} {a b : List Char} (h : c ∉ a) :
    pySplit c (a ++ c :: b) = a :: pySplit c b := by
  induction a with
  | nil => simp [pySplit]
  | cons x t ih =>
    have hx : ¬x = c := fun he => h (by simp [he])
    have ht : c ∉ t := fun hm => h (by simp [hm])
    have hne : pySplit c (t ++ c :: b) = t :: pySplit c b := ih ht
    rw [List.cons_append]
    simp only [pySplit, if_neg hx, hne]

theorem digitVal0 : digitVal '0' = 0 := rfl

theorem digitVal1 : digitVal '1' = 1 := rfl

theorem digitVal2 : digitVal '2' = 2 := rfl

theorem digitVal3 : digitVal '3' = 3 := rfl

theorem digitVal5 : digitVal '5' = 5 := rfl

theorem digitVal7 : digitVal '7' = 7 := rfl

theorem count_stripOne_le (a : Char) (s : List Char) :
    (stripOneTrailingDot s).count a ≤ s.count a := by
  unfold stripOneTrailingDot
  split_ifs
  · exact (List.dropLast_sublist s).count_le a
  · exact le_refl _

theorem precision_eq_of_dots {u : List Char} (h : u.count '.' ≤ 1) :
    (if '.' ∈ u then ((pySplit '.' u).getD 1 []).length else 0) = fracDigitCount u := by
  rcases hs : splitAtDot u with ⟨a, ofp⟩
  cases ofp with
  | none =>
    rcases splitAtDot_none hs with ⟨_, hm⟩
    rw [if_neg hm]
    unfold fracDigitCount
    rw [hs]
  | some fp =>
    rcases splitAtDot_some hs with ⟨hl, ha⟩
    have hmem : '.' ∈ u := by
      rw [hl]
      simp
    have hfp : '.' ∉ fp := by
      refine List.count_eq_zero.mp ?_
      have hsum : u.count '.' = a.count '.' + (fp.count '.' + 1) := by
        rw [hl]
        simp [List.count_append, List.count_cons]
      omega
    rw [if_pos hmem]
    unfold fracDigitCount
    rw [hs, hl, pySplit_first ha, pySplit_no_sep hfp]
    rfl

theorem parse_group_size_eq {gs : List Char} {v : ℚ} (h : pyFloat gs = some v) :
    parse_group_size gs = some (v, claimPrecision gs) := by
  have hd : gs.count '.' ≤ 1 := pyFloat_dots h
  have h0 : (pyRstrip '0' gs).count '.' ≤ 1 := le_trans (count_pyRstrip_le _ _ _) hd
  simp only [parse_group_size, h]
  rw [pyRstrip_dot_eq_stripOne h0,
    precision_eq_of_dots (le_trans (count_stripOne_le '.' _) h0)]
  rfl

/-- **C2.** For every valid decimal string `s` (one that `float` accepts,
with value `v`), `parse_group_size s` returns `v` paired with the number
of fractional digits remaining after stripping trailing `'0'` characters
and then a trailing `'.'` from `s`; in particular
`parse_group_size "0.0010" = (0.001, 3)`, `parse_group_size "1.0" = (1.0, 0)`
and `parse_group_size "2.50" = (2.5, 1)`. -/
theorem parse_group_size_precision_spec :
    (∀ (s : List Char) (v : ℚ), pyFloat s = some v →
      parse_group_size s = some (v, claimPrecision s)) ∧
    parse_group_size "0.0010".toList = some (1 / 1000, 3) ∧
    parse_group_size "1.0".toList = some (1, 0) ∧
    parse_group_size "2.50".toList = some (5 / 2, 1) := by
  refine ⟨fun s v h => parse_group_size_eq h, ?_, ?_, ?_⟩
  · norm_num +decide [parse_group_size, pyFloat, pyFloatBody, splitAtDot, isDigitB, natVal,
      List.foldl, pyRstrip, pySplit, List.dropWhile, digitVal0, digitVal1]
  · norm_num +decide [parse_group_size, pyFloat, pyFloatBody, splitAtDot, isDigitB, natVal,
      List.foldl, pyRstrip, pySplit, List.dropWhile, digitVal0, digitVal1]
  · norm_num +decide [parse_group_size, pyFloat, pyFloatBody, splitAtDot, isDigitB, natVal,
      List.foldl, pyRstrip, pySplit, List.dropWhile, digitVal0, digitVal2, digitVal5]

/-- Witness for C2: the universally quantified part applied to the
concrete string `"7"`. -/
theorem parse_group_size_precision_spec_witness :
    parse_group_size ['7'] = some (7, claimPrecision ['7']) :=
  parse_group_size_precision_spec.1 ['7'] 7
    (by simp +decide [pyFloat, pyFloatBody, splitAtDot, isDigitB, natVal, List.foldl, digitVal7])

/-- **C1 (amended).** `parse_group_size` fails exactly when the string
does not parse as a decimal (the `float` conversion raises); that failure
is surfaced before any network call — the run errors out with the
group-size error and its outcome is independent of the fetch result.
However, a string parsing to a zero or negative value is accepted without
any error (contrary to the original claim). -/
theorem parse_group_size_failure_model (gs : List Char) (d : Bool) (f₁ f₂ : Option Book) :
    (parse_group_size gs = none ↔ pyFloat gs = none) ∧
    (parse_group_size gs = none →
      runMain gs d f₁ = Except.error RunError.invalidGroupSize ∧
      runMain gs d f₁ = runMain gs d f₂) ∧
    (∀ v : ℚ, pyFloat gs = some v → v ≤ 0 →
      parse_group_size gs = some (v, claimPrecision gs)) := by
  refine ⟨⟨?_, ?_⟩, ?_, ?_⟩
  · intro h
    cases hf : pyFloat gs with
    | none => rfl
    | some v =>
      rw [parse_group_size_eq hf] at h
      exact absurd h (by simp)
  · intro h
    simp [parse_group_size, h]
  · intro h
    constructor <;> simp [runMain, h]
  · intro v hf _
    exact parse_group_size_eq hf

/-- Witness for C1: the amended theorem applied to the malformed
group-size string `"x"`, whose failure makes the run error out
identically with and without a fetched book. -/
theorem parse_group_size_failure_model_witness :
    runMain ['x'] true (some ⟨[], []⟩) = Except.error RunError.invalidGroupSize ∧
    runMain ['x'] true (some ⟨[], []⟩) = runMain ['x'] true none :=
  (parse_group_size_failure_model ['x'] true (some ⟨[], []⟩) none).2.1
    (by simp +decide [parse_group_size, pyFloat, pyFloatBody, splitAtDot, isDigitB])

/-- Counterexample for C1 as stated: the group-size strings `"0"` and
`"-1"` parse as zero resp. negative, yet `parse_group_size` succeeds, and
with `"-1"` the run proceeds past the network fetch and produces output
instead of exiting with an invalid-group-size error. -/
theorem parse_group_size_nonpositive_cex :
    parse_group_size ['0'] = some (0, 0) ∧
    parse_group_size ['-', '1'] = some (-1, 0) ∧
    runMain ['-', '1'] true (some ⟨[(['1'], ['2'])], []⟩) =
      Except.ok ⟨[(1, 2)], [(1, 2)], [], []⟩ := by
  refine ⟨?_, ?_, ?_⟩
  · norm_num +decide [parse_group_size, pyFloat, pyFloatBody, splitAtDot, isDigitB, natVal,
      List.foldl, pyRstrip, pySplit, List.dropWhile, digitVal0]
  · norm_num +decide [parse_group_size, pyFloat, pyFloatBody, splitAtDot, isDigitB, natVal,
      List.foldl, pyRstrip, pySplit, List.dropWhile, digitVal1]
  · norm_num +decide [runMain, parse_group_size, pyFloat, pyFloatBody, splitAtDot, isDigitB,
      natVal, List.foldl, pyRstrip, pySplit, List.dropWhile, aggLevelsStr, group_price,
      bucketOf, dictAdd, bids_by_price, bids_by_qty, asks_by_price, asks_by_qty, sortedPy,
      List.insertionSort, List.orderedInsert, keyLE, keyGE]

/-- **C3.** For every level with non-negative price `p` and every bucket
size `b > 0`, the bucket key computed by `group_price` equals
`⌊p / b⌋ * b`, satisfies `k ≤ p < k + b` (exactly, in the rational
model), and is an integer multiple of `b`. -/
theorem group_price_bucket_bounds (p b : ℚ) (hp : 0 ≤ p) (hb : 0 < b) :
    bucketOf p b = ⌊p / b⌋ * b ∧
    bucketOf p b ≤ p ∧
    p < bucketOf p b + b ∧
    (∃ n : ℤ, bucketOf p b = n * b) ∧
    ∀ s : List Char, pyFloat s = some p → group_price s b = some (bucketOf p b) := by
  refine ⟨rfl, ?_, ?_, ⟨⌊p / b⌋, rfl⟩, ?_⟩
  · have h1 : (⌊p / b⌋ : ℚ) ≤ p / b := Int.floor_le _
    have h2 := mul_le_mul_of_nonneg_right h1 (le_of_lt hb)
    rwa [div_mul_cancel₀ _ (ne_of_gt hb)] at h2
  · have h1 : p / b < ⌊p / b⌋ + 1 := Int.lt_floor_add_one _
    have h2 := (div_lt_iff₀ hb).mp h1
    calc p < ((⌊p / b⌋ : ℚ) + 1) * b := h2
      _ = bucketOf p b + b := by rw [add_mul, one_mul, bucketOf]
  · intro s hs
    simp [group_price, hs]

/-- Witness for C3: the bounds at price `314` and bucket size `10`. -/
theorem group_price_bucket_bounds_witness :
    bucketOf 314 10 = ⌊(314 : ℚ) / 10⌋ * 10 ∧
    bucketOf 314 10 ≤ 314 ∧
    (314 : ℚ) < bucketOf 314 10 + 10 ∧
    (∃ n : ℤ, bucketOf 314 10 = n * 10) ∧
    ∀ s : List Char, pyFloat s = some 314 → group_price s 10 = some (bucketOf 314 10) :=
  group_price_bucket_bounds 314 10 (by norm_num) (by norm_num)

/-! ### Dictionary and aggregation lemmas -/

theorem dget_dictAdd_self (m : List (ℚ × ℚ)) (k v : ℚ) :
    dget (dictAdd m k v) k = dget m k + v := by
  induction m with
  | nil => simp [dictAdd, dget]
  | cons p t ih =>
    rcases p with ⟨k2, v2⟩
    by_cases hk : k = k2
    · simp [dictAdd, dget, hk]
    · simp [dictAdd, dget, hk, ih]

theorem dget_dictAdd_other (m : List (ℚ × ℚ)) {k k2 : ℚ} (v : ℚ) (h : k2 ≠ k) :
    dget (dictAdd m k v) k2 = dget m k2 := by
  induction m with
  | nil => simp [dictAdd, dget, h]
  | cons p t ih =>
    rcases p with ⟨k3, v3⟩
    by_cases hk : k = k3
    · subst hk
      simp [dictAdd, dget, h]
    · by_cases hk2 : k2 = k3
      · simp [dictAdd, dget, hk, hk2]
      · simp [dictAdd, dget, hk, hk2, ih]

theorem mem_dkeys_dictAdd {a : ℚ} (m : List (ℚ × ℚ)) (k v : ℚ) :
    a ∈ dkeys (dictAdd m k v) ↔ a ∈ dkeys m ∨ a = k := by
  induction m with
  | nil => simp [dictAdd, dkeys]
  | cons p t ih =>
    rcases p with ⟨k2, v2⟩
    by_cases hk : k = k2
    · subst hk
      simp [dictAdd, dkeys]
      tauto
    · simp only [dictAdd, if_neg hk, dkeys, List.map_cons, List.mem_cons]
      have := ih
      simp only [dkeys] at this
      rw [this]
      tauto

theorem nodup_dkeys_dictAdd {m : List (ℚ × ℚ)} (h : (dkeys m).Nodup) (k v : ℚ) :
    (dkeys (dictAdd m k v)).Nodup := by
  induction m with
  | nil => simp [dictAdd, dkeys]
  | cons p t ih =>
    rcases p with ⟨k2, v2⟩
    simp only [dkeys, List.map_cons, List.nodup_cons] at h
    by_cases hk : k = k2
    · subst hk
      have he : dictAdd ((k, v2) :: t) k v = (k, v2 + v) :: t := by
        simp [dictAdd]
      rw [he]
      simp only [dkeys, List.map_cons, List.nodup_cons]
      exact ⟨h.1, h.2⟩
    · simp only [dictAdd, if_neg hk, dkeys, List.map_cons, List.nodup_cons]
      refine ⟨?_, ih h.2⟩
      intro hmem
      rcases (mem_dkeys_dictAdd t k v).mp hmem with hin | he
      · exact h.1 hin
      · exact hk he.symm

theorem valsum_dictAdd (m : List (ℚ × ℚ)) (k v : ℚ) :
    ((dictAdd m k v).map Prod.snd).sum = (m.map Prod.snd).sum + v := by
  induction m with
  | nil => simp [dictAdd]
  | cons p t ih =>
    rcases p with ⟨k2, v2⟩
    by_cases hk : k = k2
    · simp [dictAdd, hk]
      ring
    · simp [dictAdd, hk, ih]
      ring

theorem dictAdd_ne_nil (m : List (ℚ × ℚ)) (k v : ℚ) : dictAdd m k v ≠ [] := by
  cases m with
  | nil => simp [dictAdd]
  | cons p t =>
    rcases p with ⟨k2, v2⟩
    by_cases hk : k = k2
    · simp [dictAdd, hk]
    · simp [dictAdd, hk]

theorem dget_aggLevels (b : ℚ) (ls : List (ℚ × ℚ)) :
    ∀ (m : List (ℚ × ℚ)) (k : ℚ),
      dget (aggLevels b m ls) k =
        dget m k + ((ls.filter fun lv => bucketOf lv.1 b = k).map Prod.snd).sum := by
  induction ls with
  | nil => simp [aggLevels]
  | cons lv rest ih =>
    intro m k
    have hstep : aggLevels b m (lv :: rest) =
        aggLevels b (dictAdd m (bucketOf lv.1 b) lv.2) rest := rfl
    rw [hstep, ih]
    by_cases hk : bucketOf lv.1 b = k
    · rw [List.filter_cons_of_pos (by simpa using hk)]
      subst hk
      rw [dget_dictAdd_self]
      simp
      ring
    · rw [List.filter_cons_of_neg (by simpa using hk)]
      rw [dget_dictAdd_other _ _ (fun he => hk he.symm)]

theorem mem_dkeys_aggLevels (b : ℚ) (ls : List (ℚ × ℚ)) :
    ∀ (m : List (ℚ × ℚ)) (a : ℚ),
      a ∈ dkeys (aggLevels b m ls) ↔
        a ∈ dkeys m ∨ ∃ lv ∈ ls, bucketOf lv.1 b = a := by
  induction ls with
  | nil => simp [aggLevels]
  | cons lv rest ih =>
    intro m a
    have hstep : aggLevels b m (lv :: rest) =
        aggLevels b (dictAdd m (bucketOf lv.1 b) lv.2) rest := rfl
    rw [hstep, ih, mem_dkeys_dictAdd]
    constructor
    · intro h
      rcases h with (h | h) | ⟨w, hw, he⟩
      · exact Or.inl h
      · exact Or.inr ⟨lv, by simp, h.symm⟩
      · exact Or.inr ⟨w, by simp [hw], he⟩
    · intro h
      rcases h with h | ⟨w, hw, he⟩
      · exact Or.inl (Or.inl h)
      · rcases List.mem_cons.mp hw with he2 | hin
        · exact Or.inl (Or.inr (he2 ▸ he).symm)
        · exact Or.inr ⟨w, hin, he⟩

theorem nodup_dkeys_aggLevels (b : ℚ) (ls : List (ℚ × ℚ)) :
    ∀ {m : List (ℚ × ℚ)}, (dkeys m).Nodup → (dkeys (aggLevels b m ls)).Nodup := by
  induction ls with
  | nil =>
    intro m h
    exact h
  | cons lv rest ih =>
    intro m h
    exact ih (nodup_dkeys_dictAdd h _ _)

theorem valsum_aggLevels (b : ℚ) (ls : List (ℚ × ℚ)) :
    ∀ (m : List (ℚ × ℚ)),
      ((aggLevels b m ls).map Prod.snd).sum =
        (m.map Prod.snd).sum + (ls.map Prod.snd).sum := by
  induction ls with
  | nil => simp [aggLevels]
  | cons lv rest ih =>
    intro m
    have hstep : aggLevels b m (lv :: rest) =
        aggLevels b (dictAdd m (bucketOf lv.1 b) lv.2) rest := rfl
    rw [hstep, ih, valsum_dictAdd]
    simp
    ring

theorem aggLevels_ne_nil (b : ℚ) (ls : List (ℚ × ℚ)) :
    ∀ {m : List (ℚ × ℚ)}, m ≠ [] → aggLevels b m ls ≠ [] := by
  induction ls with
  | nil =>
    intro m h
    exact h
  | cons lv rest ih =>
    intro m _
    exact ih (dictAdd_ne_nil _ _ _)

/-- **C4.** For a fixed bucket size `b > 0`, aggregation is additive —
aggregating `[L1, L2]` and then `[L3]` into the same mapping yields
exactly the mapping obtained from `[L1, L2, L3]` — and order-independent:
aggregating any permutation of a level list yields the same mapping
(the same value at every key, and the same key set). -/
theorem aggregation_additive_order_independent (b : ℚ) (hb : 0 < b)
    (m : List (ℚ × ℚ)) (L1 L2 L3 : ℚ × ℚ) (ls ls2 : List (ℚ × ℚ))
    (hperm : ls.Perm ls2) :
    aggLevels b (aggLevels b m [L1, L2]) [L3] = aggLevels b m [L1, L2, L3] ∧
    (∀ k, dget (aggLevels b [] ls) k = dget (aggLevels b [] ls2) k) ∧
    (dkeys (aggLevels b [] ls)).Perm (dkeys (aggLevels b [] ls2)) := by
  refine ⟨rfl, ?_, ?_⟩
  · intro k
    rw [dget_aggLevels, dget_aggLevels]
    exact congrArg (dget [] k + ·) (List.Perm.sum_eq ((hperm.filter _).map _))
  · have h1 : (dkeys (aggLevels b [] ls)).Nodup :=
      nodup_dkeys_aggLevels b ls (by simp [dkeys])
    have h2 : (dkeys (aggLevels b [] ls2)).Nodup :=
      nodup_dkeys_aggLevels b ls2 (by simp [dkeys])
    refine (List.perm_ext_iff_of_nodup h1 h2).mpr ?_
    intro a
    rw [mem_dkeys_aggLevels, mem_dkeys_aggLevels]
    constructor
    · intro h
      rcases h with h | ⟨w, hw, he⟩
      · simp [dkeys] at h
      · exact Or.inr ⟨w, hperm.mem_iff.mp hw, he⟩
    · intro h
      rcases h with h | ⟨w, hw, he⟩
      · simp [dkeys] at h
      · exact Or.inr ⟨w, hperm.mem_iff.mpr hw, he⟩

/-- Witness for C4: bucket size `1`, three concrete levels, and the
two-element level list `[(1,1), (2,2)]` against its swap. -/
theorem aggregation_additive_order_independent_witness :
    aggLevels 1 (aggLevels 1 [] [(1, 1), (2, 2)]) [(3, 3)] =
      aggLevels 1 [] [(1, 1), (2, 2), (3, 3)] ∧
    (∀ k, dget (aggLevels 1 [] [(1, 1), (2, 2)]) k =
      dget (aggLevels 1 [] [(2, 2), (1, 1)]) k) ∧
    (dkeys (aggLevels 1 [] [(1, 1), (2, 2)])).Perm
      (dkeys (aggLevels 1 [] [(2, 2), (1, 1)])) :=
  aggregation_additive_order_independent 1 one_pos [] (1, 1) (2, 2) (3, 3)
    [(1, 1), (2, 2)] [(2, 2), (1, 1)] (List.Perm.swap (2, 2) (1, 1) [])

/-- **C10.** Quantity mass is conserved by aggregation: for every level
list and bucket size `b > 0`, the sum of the per-bucket quantity sums of
the aggregated mapping equals the sum of the input quantities, and the
mapping is empty exactly when the input list is empty. -/
theorem aggregation_mass_conservation (b : ℚ) (hb : 0 < b) (ls : List (ℚ × ℚ)) :
    ((aggLevels b [] ls).map Prod.snd).sum = (ls.map Prod.snd).sum ∧
    (aggLevels b [] ls = [] ↔ ls = []) := by
  constructor
  · simpa using valsum_aggLevels b ls []
  · constructor
    · intro h
      cases ls with
      | nil => rfl
      | cons lv rest =>
        exfalso
        have h1 : aggLevels b [] (lv :: rest) =
            aggLevels b (dictAdd [] (bucketOf lv.1 b) lv.2) rest := rfl
        rw [h1] at h
        exact aggLevels_ne_nil b rest (dictAdd_ne_nil _ _ _) h
    · intro h
      subst h
      rfl

/-- Witness for C10: bucket size `1` and the single level `(1, 2)`. -/
theorem aggregation_mass_conservation_witness :
    ((aggLevels 1 [] [(1, 2)]).map Prod.snd).sum = ([(1, 2)].map Prod.snd).sum ∧
    (aggLevels 1 [] [(1, 2)] = [] ↔ [((1 : ℚ), (2 : ℚ))] = []) :=
  aggregation_mass_conservation 1 one_pos [(1, 2)]

/-! ### Sorting lemmas -/

theorem sorted_eq_of_perm_nodup {α : Type} (k : α → ℚ) (r : α → α → Prop)
    (hr : ∀ x y, r x y → r y x → k x = k y) :
    ∀ {l1 l2 : List α}, l1.Perm l2 → l1.Sorted r → l2.Sorted r →
      (l1.map k).Nodup → l1 = l2 := by
  intro l1
  induction l1 with
  | nil =>
    intro l2 hp _ _ _
    cases l2 with
    | nil => rfl
    | cons b t2 => exact absurd hp.length_eq (by simp)
  | cons a t ih =>
    intro l2 hp hs1 hs2 hnd
    cases l2 with
    | nil => exact absurd hp.length_eq (by simp)
    | cons b t2 =>
      have hbmem : b ∈ a :: t := hp.symm.subset (List.mem_cons_self b t2)
      have hamem : a ∈ b :: t2 := hp.subset (List.mem_cons_self a t)
      simp only [List.map_cons, List.nodup_cons] at hnd
      have hab : a = b := by
        rcases List.mem_cons.mp hbmem with he | hbt
        · exact he.symm
        · rcases List.mem_cons.mp hamem with he | hat
          · exact he
          · have h1 : r a b := List.rel_of_sorted_cons hs1 b hbt
            have h2 : r b a := List.rel_of_sorted_cons hs2 a hat
            have hk : k a = k b := hr _ _ h1 h2
            exfalso
            refine hnd.1 ?_
            rw [hk]
            exact List.mem_map_of_mem k hbt
      subst hab
      have ht : t.Perm t2 := hp.cons_inv
      rw [ih ht hs1.of_cons hs2.of_cons hnd.2]

theorem sortedPy_perm {α : Type} (k : α → ℚ) (rev : Bool) (l : List α) :
    (sortedPy k rev l).Perm l := by
  cases rev
  · simpa [sortedPy] using List.perm_insertionSort (keyLE k) l
  · simpa [sortedPy] using List.perm_insertionSort (keyGE k) l

theorem sortedPy_sorted_asc {α : Type} (k : α → ℚ) (l : List α) :
    (sortedPy k false l).Sorted (keyLE k) := by
  simpa [sortedPy] using List.sorted_insertionSort (keyLE k) l

theorem sortedPy_sorted_desc {α : Type} (k : α → ℚ) (l : List α) :
    (sortedPy k true l).Sorted (keyGE k) := by
  simpa [sortedPy] using List.sorted_insertionSort (keyGE k) l

theorem sortedPy_rev_reverse {α : Type} (k : α → ℚ) (l : List α)
    (h : (l.map k).Nodup) :
    sortedPy k true l = (sortedPy k false l).reverse := by
  have hA := sortedPy_sorted_asc k l
  have hD := sortedPy_sorted_desc k l
  have hpermD : (sortedPy k true l).Perm l := sortedPy_perm k true l
  have hpermA : (sortedPy k false l).Perm l := sortedPy_perm k false l
  have hperm : (sortedPy k true l).Perm ((sortedPy k false l).reverse) :=
    hpermD.trans (hpermA.symm.trans (List.reverse_perm _).symm)
  have hsortedRev : ((sortedPy k false l).reverse).Sorted (keyGE k) :=
    List.pairwise_reverse.mpr hA
  have hnodup : ((sortedPy k true l).map k).Nodup :=
    (List.Perm.nodup_iff (hpermD.map k)).mpr h
  exact sorted_eq_of_perm_nodup k (keyGE k) (fun x y h1 h2 => le_antisymm h2 h1)
    hperm hD hsortedRev hnodup

/-- **C5.** For every bucket mapping, the price-sorted and
quantity-sorted views each contain every bucket of the mapping exactly
once (they are permutations of the mapping's entries) — unconditionally.
Flipping the sort direction reverses the resulting sequence: for the
price view under the mapping's distinct bucket keys, and for the
quantity view ties aside, i.e. when the quantity sums are distinct. -/
theorem sorted_views_spec (m : List (ℚ × ℚ)) (dir : Bool)
    (hk : (m.map Prod.fst).Nodup) :
    ((sortedPy Prod.fst dir m).Perm m ∧ (sortedPy Prod.snd dir m).Perm m) ∧
    sortedPy Prod.fst true m = (sortedPy Prod.fst false m).reverse ∧
    ((m.map Prod.snd).Nodup →
      sortedPy Prod.snd true m = (sortedPy Prod.snd false m).reverse) :=
  ⟨⟨sortedPy_perm _ _ _, sortedPy_perm _ _ _⟩,
    sortedPy_rev_reverse _ _ hk, fun hq => sortedPy_rev_reverse _ _ hq⟩

/-- Witness for C5: the two-bucket mapping `[(1, 2), (2, 1)]`, which has
distinct prices and distinct quantities. -/
theorem sorted_views_spec_witness :
    ((sortedPy Prod.fst true [((1 : ℚ), (2 : ℚ)), (2, 1)]).Perm [(1, 2), (2, 1)] ∧
      (sortedPy Prod.snd true [((1 : ℚ), (2 : ℚ)), (2, 1)]).Perm [(1, 2), (2, 1)]) ∧
    sortedPy Prod.fst true [((1 : ℚ), (2 : ℚ)), (2, 1)] =
      (sortedPy Prod.fst false [(1, 2), (2, 1)]).reverse ∧
    sortedPy Prod.snd true [((1 : ℚ), (2 : ℚ)), (2, 1)] =
      (sortedPy Prod.snd false [(1, 2), (2, 1)]).reverse :=
  ⟨(sorted_views_spec [(1, 2), (2, 1)] true (by norm_num)).1,
    (sorted_views_spec [(1, 2), (2, 1)] true (by norm_num)).2.1,
    (sorted_views_spec [(1, 2), (2, 1)] true (by norm_num)).2.2 (by norm_num)⟩

/-- **C6.** The bids price view is sorted descending by bucket key, the
asks price view ascending, and the quantity views of both sides are
sorted in the one user-selected direction, applied uniformly. -/
theorem side_views_directions (mb ma : List (ℚ × ℚ)) (dirDesc : Bool) :
    (bids_by_price mb).Sorted (keyGE Prod.fst) ∧
    (asks_by_price ma).Sorted (keyLE Prod.fst) ∧
    (bids_by_qty mb dirDesc).Sorted
      (if dirDesc then keyGE Prod.snd else keyLE Prod.snd) ∧
    (asks_by_qty ma dirDesc).Sorted
      (if dirDesc then keyGE Prod.snd else keyLE Prod.snd) := by
  cases dirDesc
  · exact ⟨sortedPy_sorted_desc _ _, sortedPy_sorted_asc _ _,
      sortedPy_sorted_asc _ _, sortedPy_sorted_asc _ _⟩
  · exact ⟨sortedPy_sorted_desc _ _, sortedPy_sorted_asc _ _,
      sortedPy_sorted_desc _ _, sortedPy_sorted_desc _ _⟩

/-! ### `format_quantity` lemmas -/

theorem natCharsGo_ne_nil : ∀ (fuel n : Nat) (acc : List Char),
    fuel ≠ 0 ∨ acc ≠ [] → natCharsGo fuel n acc ≠ [] := by
  intro fuel
  induction fuel with
  | zero =>
    intro n acc h
    rcases h with h | h
    · exact absurd rfl h
    · simpa [natCharsGo] using h
  | succ f ih =>
    intro n acc _
    unfold natCharsGo
    split_ifs with hn
    · simp
    · exact ih (n / 10) (Char.ofNat (48 + n % 10) :: acc) (Or.inr (by simp))

theorem natChars_ne_nil (n : Nat) : natChars n ≠ [] :=
  natCharsGo_ne_nil (n + 1) n [] (Or.inl (by simp))

theorem formatFixed2_shape (q : ℚ) (h : 0 ≤ q) :
    ∃ ds d1 d2, formatFixed2 q = ds ++ ['.', d1, d2] ∧ ds ≠ [] := by
  refine ⟨natChars ((rne (q * 100)).toNat / 100),
    Char.ofNat (48 + (rne (q * 100)).toNat % 100 / 10),
    Char.ofNat (48 + (rne (q * 100)).toNat % 100 % 10), ?_, natChars_ne_nil _⟩
  unfold formatFixed2
  rw [if_neg (not_lt.mpr h)]
  rfl

/-- **C7 (amended).** `format_quantity` applies the magnitude suffixes
`B`/`M`/`k` at the 10^9 / 10^6 / 10^3 thresholds, rendering the scaled
value with *exactly* two fractional digits (no stripping in the suffixed
branches, contrary to the original claim); only below 1,000 is the
two-decimal rendering stripped of trailing zeros and a trailing point. -/
theorem format_quantity_branches (q : ℚ) (h0 : 0 ≤ q) :
    (1000000000 ≤ q → format_quantity q = formatFixed2 (q / 1000000000) ++ ['B']) ∧
    (1000000 ≤ q → q < 1000000000 →
      format_quantity q = formatFixed2 (q / 1000000) ++ ['M']) ∧
    (1000 ≤ q → q < 1000000 →
      format_quantity q = formatFixed2 (q / 1000) ++ ['k']) ∧
    (q < 1000 → format_quantity q = pyRstrip '.' (pyRstrip '0' (formatFixed2 q))) ∧
    ∀ x : ℚ, 0 ≤ x → ∃ ds d1 d2, formatFixed2 x = ds ++ ['.', d1, d2] ∧ ds ≠ [] := by
  refine ⟨?_, ?_, ?_, ?_, fun x hx => formatFixed2_shape x hx⟩
  · intro h
    simp only [format_quantity]
    rw [if_pos h]
  · intro h1 h2
    simp only [format_quantity]
    rw [if_neg (not_le.mpr h2), if_pos h1]
  · intro h1 h2
    simp only [format_quantity]
    rw [if_neg (not_le.mpr (lt_trans h2 (by norm_num))), if_neg (not_le.mpr h2), if_pos h1]
  · intro h
    simp only [format_quantity]
    rw [if_neg (not_le.mpr (lt_of_lt_of_le h (by norm_num))),
      if_neg (not_le.mpr (lt_of_lt_of_le h (by norm_num))), if_neg (not_le.mpr h)]

/-- Witness for C7: the `k` branch at quantity `1500`. -/
theorem format_quantity_branches_witness :
    format_quantity 1500 = formatFixed2 ((1500 : ℚ) / 1000) ++ ['k'] :=
  (format_quantity_branches 1500 (by norm_num)).2.2.1 (by norm_num) (by norm_num)

/-- Counterexample for C7 as stated: at quantity `1000` the code prints
`"1.00k"`, while stripping trailing zeros and the trailing point from the
scaled value (as the claim demands) would print `"1k"`. -/
theorem format_quantity_strip_cex :
    format_quantity 1000 = "1.00k".toList ∧
    claim_format_quantity 1000 = "1k".toList ∧
    format_quantity 1000 ≠ claim_format_quantity 1000 := by
  have hr : rne ((1000 : ℚ) / 1000 * 100) = 100 := by norm_num [rne]
  have h1 : format_quantity 1000 = "1.00k".toList := by
    simp only [format_quantity, formatFixed2]
    rw [if_neg (by norm_num), if_neg (by norm_num), if_pos (by norm_num),
      if_neg (by norm_num), hr]
    decide
  have h2 : claim_format_quantity 1000 = "1k".toList := by
    simp only [claim_format_quantity, formatFixed2]
    rw [if_neg (by norm_num), if_neg (by norm_num), if_pos (by norm_num),
      if_neg (by norm_num), hr]
    decide
  refine ⟨h1, h2, ?_⟩
  rw [h1, h2]
  decide

/-- **C8.** The rendering examples of the spec hold on the code:
`1500 ↦ "1.50k"`, `2500000 ↦ "2.50M"`, `3 ↦ "3"` and `3.2 ↦ "3.2"`. -/
theorem format_quantity_examples :
    format_quantity 1500 = "1.50k".toList ∧
    format_quantity 2500000 = "2.50M".toList ∧
    format_quantity 3 = "3".toList ∧
    format_quantity (16 / 5) = "3.2".toList := by
  refine ⟨?_, ?_, ?_, ?_⟩
  · have hr : rne ((1500 : ℚ) / 1000 * 100) = 150 := by norm_num [rne]
    simp only [format_quantity, formatFixed2]
    rw [if_neg (by norm_num), if_neg (by norm_num), if_pos (by norm_num),
      if_neg (by norm_num), hr]
    decide
  · have hr : rne ((2500000 : ℚ) / 1000000 * 100) = 250 := by norm_num [rne]
    simp only [format_quantity, formatFixed2]
    rw [if_neg (by norm_num), if_pos (by norm_num), if_neg (by norm_num), hr]
    decide
  · have hr : rne ((3 : ℚ) * 100) = 300 := by norm_num [rne]
    simp only [format_quantity, formatFixed2]
    rw [if_neg (by norm_num), if_neg (by norm_num), if_neg (by norm_num),
      if_neg (by norm_num), hr]
    decide
  · have hr : rne ((16 : ℚ) / 5 * 100) = 320 := by norm_num [rne]
    simp only [format_quantity, formatFixed2]
    rw [if_neg (by norm_num), if_neg (by norm_num), if_neg (by norm_num),
      if_neg (by norm_num), hr]
    decide

/-- **C9.** End to end on the spec's example: with group size `"0.1"`
(parsed to bucket size `0.1`, precision `1`), aggregating the bid levels
`[["100.05","2"], ["100.12","3"]]` yields exactly the buckets
`100.0 ↦ 2` and `100.1 ↦ 3`, and the price-ascending view of that
mapping is `[(100.0, 2), (100.1, 3)]`. -/
theorem end_to_end_grouping_example :
    parse_group_size "0.1".toList = some (1 / 10, 1) ∧
    aggLevelsStr (1 / 10) []
      [("100.05".toList, "2".toList), ("100.12".toList, "3".toList)] =
      some [(100, 2), (1001 / 10, 3)] ∧
    sortedPy Prod.fst false [((100 : ℚ), (2 : ℚ)), (1001 / 10, 3)] =
      [(100, 2), (1001 / 10, 3)] := by
  refine ⟨?_, ?_, ?_⟩
  · norm_num +decide [parse_group_size, pyFloat, pyFloatBody, splitAtDot, isDigitB, natVal,
      List.foldl, pyRstrip, pySplit, List.dropWhile, digitVal0, digitVal1]
  · norm_num +decide [aggLevelsStr, group_price, pyFloat, pyFloatBody, splitAtDot, isDigitB,
      natVal, List.foldl, bucketOf, dictAdd, digitVal0, digitVal1, digitVal2, digitVal3,
      digitVal5]
  · norm_num +decide [sortedPy, List.insertionSort, List.orderedInsert, keyLE]
